import Mathlib

/-!
Verification of the QCM answer-extraction parser (`QCMPatternService`) and the
feedback sequencer (`QCMVibrationFlashService` / `HapticService`) of the
React-Accessibility repository, as a shallow embedding in Lean.

Strings are modelled as `List Char`.  The JavaScript regular expressions used by
`extractQCMAnswers` are embedded as deterministic maximal-munch matchers: for
these particular patterns (`(\d+)\s*SEP\s*([a-eA-E]+(?:\s*,\s*[a-eA-E]+)*)` and
the `Q`-prefixed variant) greedy matching never needs to backtrack, because no
character can simultaneously extend one atom and begin the next, so the
maximal-munch parser computes exactly the JS match.  `matchAll` scanning
(leftmost match, resume after the end of the previous match) is embedded by
`scanWith`.  The regex class `\s` and `String.prototype.trim` are modelled on
ASCII whitespace; `parseInt(d, 10)` on a digit run is the numeric value of the
digits; the dedup `Set` of `` `${q}-${answer}` `` keys is modelled as a list of
`(questionNumber, answer)` pairs (the key map is injective: the question number
contains no hyphen and the answer segments consist of letters only).
-/

namespace QCM

/-- Characters matched by the regex class `\d`. -/
def isDigitC (c : Char) : Bool := decide ('0' ≤ c ∧ c ≤ '9')

/-- ASCII whitespace: models the regex class `\s` and `String.prototype.trim`. -/
def isSpaceC (c : Char) : Bool :=
  c = ' ' || c = '\t' || c = '\n' || c = '\r' || c = Char.ofNat 11 || c = Char.ofNat 12

/-- Characters matched by the class `[a-eA-E]`. -/
def isAnswerLetter (c : Char) : Bool :=
  decide (('a' ≤ c ∧ c ≤ 'e') ∨ ('A' ≤ c ∧ c ≤ 'E'))

/-- `String.prototype.toLowerCase`, restricted to ASCII (the only characters the
patterns can capture are ASCII letters, whitespace and commas). -/
def toLowerAscii (c : Char) : Char :=
  if 'A' ≤ c ∧ c ≤ 'Z' then Char.ofNat (c.toNat + 32) else c

/-- `parseInt(ds, 10)` on a non-empty digit run. -/
def natOfDigits (ds : List Char) : Nat :=
  ds.foldl (fun n c => n * 10 + (c.toNat - 48)) 0

/-- One successful regex match: `match[1]` parsed, `match[2]` (the letter
payload, original case), and `match[0]` (the whole matched text). -/
structure RawMatch where
  questionNumber : Nat
  payload : List Char
  whole : List Char
deriving DecidableEq

/-- One iteration of the group `(?:\s*,\s*[a-eA-E]+)`: whitespace, a comma,
whitespace, then a non-empty letter run.  Returns the consumed text and the
rest. -/
def commaIter (l : List Char) : Option (List Char × List Char) :=
  let w1 := l.takeWhile isSpaceC
  let r1 := l.dropWhile isSpaceC
  match r1 with
  | ',' :: r2 =>
    let w2 := r2.takeWhile isSpaceC
    let r3 := r2.dropWhile isSpaceC
    let ls := r3.takeWhile isAnswerLetter
    let r4 := r3.dropWhile isAnswerLetter
    if ls.isEmpty then none else some (w1 ++ ',' :: w2 ++ ls, r4)
  | _ => none

/-- The Kleene star over `commaIter`.  Each iteration consumes at least the
comma, so fuel equal to the length of the input suffices. -/
def commaTail : Nat → List Char → List Char × List Char
  | 0, l => ([], l)
  | fuel + 1, l =>
    match commaIter l with
    | none => ([], l)
    | some (seg, rest) =>
      let (segs, rest2) := commaTail fuel rest
      (seg ++ segs, rest2)

/-- The capture group `([a-eA-E]+(?:\s*,\s*[a-eA-E]+)*)`: a non-empty letter
run followed by comma-separated repetitions; returns the captured payload and
the rest of the text. -/
def matchPayload (l : List Char) : Option (List Char × List Char) :=
  let ls := l.takeWhile isAnswerLetter
  let r := l.dropWhile isAnswerLetter
  if ls.isEmpty then none
  else
    let (tail, rest) := commaTail r.length r
    some (ls ++ tail, rest)

/-- Matcher for the patterns `(\d+)\s*SEP\s*(payload)` with `SEP` one of
`/`, `-`, `:` (patterns 1, 3 and 4 of `QCMPatternService.patterns`). -/
def matchSep (sep : Char) (l : List Char) : Option (RawMatch × List Char) :=
  let ds := l.takeWhile isDigitC
  let r1 := l.dropWhile isDigitC
  if ds.isEmpty then none
  else
    let w1 := r1.takeWhile isSpaceC
    let r2 := r1.dropWhile isSpaceC
    match r2 with
    | [] => none
    | c :: r3 =>
      if c = sep then
        let w2 := r3.takeWhile isSpaceC
        let r4 := r3.dropWhile isSpaceC
        match matchPayload r4 with
        | some (pay, rest) => some (⟨natOfDigits ds, pay, ds ++ w1 ++ c :: w2 ++ pay⟩, rest)
        | none => none
      else none

/-- Matcher for pattern 2, `(\d+)\.\s*(payload)`: the period follows the digits
immediately (no `\s*` before it in the source regex). -/
def matchPeriod (l : List Char) : Option (RawMatch × List Char) :=
  let ds := l.takeWhile isDigitC
  let r1 := l.dropWhile isDigitC
  if ds.isEmpty then none
  else
    match r1 with
    | '.' :: r2 =>
      let w := r2.takeWhile isSpaceC
      let r3 := r2.dropWhile isSpaceC
      match matchPayload r3 with
      | some (pay, rest) => some (⟨natOfDigits ds, pay, ds ++ '.' :: w ++ pay⟩, rest)
      | none => none
    | _ => none

/-- Matcher for pattern 5, `[Qq](\d+)\s*[:.]?\s*(payload)`. -/
def matchQ (l : List Char) : Option (RawMatch × List Char) :=
  match l with
  | [] => none
  | c :: r0 =>
    if c = 'Q' ∨ c = 'q' then
      let ds := r0.takeWhile isDigitC
      let r1 := r0.dropWhile isDigitC
      if ds.isEmpty then none
      else
        let w1 := r1.takeWhile isSpaceC
        let r2 := r1.dropWhile isSpaceC
        let (sep, r3) :=
          match r2 with
          | d :: rr => if d = ':' ∨ d = '.' then ([d], rr) else (([] : List Char), r2)
          | [] => (([] : List Char), r2)
        let w2 := r3.takeWhile isSpaceC
        let r4 := r3.dropWhile isSpaceC
        match matchPayload r4 with
        | some (pay, rest) => some (⟨natOfDigits ds, pay, c :: ds ++ w1 ++ sep ++ w2 ++ pay⟩, rest)
        | none => none
    else none

/-- `text.matchAll(pattern)`: find the leftmost match, record it, and resume
immediately after its end.  Every match consumes at least one character, so
fuel equal to the text length suffices. -/
def scanWith (m : List Char → Option (RawMatch × List Char)) : Nat → List Char → List RawMatch
  | 0, _ => []
  | _, [] => []
  | fuel + 1, c :: rest =>
    match m (c :: rest) with
    | some (rm, after) => rm :: scanWith m fuel after
    | none => scanWith m fuel rest

/-- The five patterns of `QCMPatternService.patterns`, in source order. -/
def patternMatchers : List (List Char → Option (RawMatch × List Char)) :=
  [matchSep '/', matchPeriod, matchSep '-', matchSep ':', matchQ]

/-- All matches of all five patterns, pattern by pattern (the outer loop of
`extractQCMAnswers`). -/
def allMatches (text : List Char) : List RawMatch :=
  (patternMatchers.map (fun f => scanWith f text.length text)).flatten

/-- The `QCMAnswer` record of `QCMPatternService`. -/
structure QCMAnswer where
  questionNumber : Nat
  answer : List Char
  rawText : List Char
deriving DecidableEq

/-- `answerString.split(',')`. -/
def splitComma : List Char → List (List Char)
  | [] => [[]]
  | c :: rest =>
    if c = ',' then [] :: splitComma rest
    else
      match splitComma rest with
      | s :: ss => (c :: s) :: ss
      | [] => [[c]]

/-- `String.prototype.trim` (ASCII whitespace). -/
def trimC (l : List Char) : List Char :=
  ((l.dropWhile isSpaceC).reverse.dropWhile isSpaceC).reverse

/-- The per-match body of `extractQCMAnswers`: lowercase the payload; if it
contains a comma, split on commas, trim each segment, drop empty segments and
emit one answer per remaining segment (with the reconstructed diagnostic
`rawText`); otherwise emit the whole lowercased run as a single answer. -/
def candidatesOfMatch (rm : RawMatch) : List QCMAnswer :=
  let answerString := rm.payload.map toLowerAscii
  if answerString.contains ',' then
    let individualAnswers := ((splitComma answerString).map trimC).filter (fun a => !a.isEmpty)
    individualAnswers.map (fun a =>
      ⟨rm.questionNumber, a,
        Nat.toDigits 10 rm.questionNumber ++ '-' :: a ++ (" (from: ".data ++ rm.whole ++ ")".data)⟩)
  else
    [⟨rm.questionNumber, answerString, rm.whole⟩]

/-- The dedup key `` `${questionNumber}-${answer}` `` of an answer, modelled as
the pair itself. -/
def keyOf (a : QCMAnswer) : Nat × List Char := (a.questionNumber, a.answer)

/-- The `processedAnswers` set: keep a candidate only if its key has not been
seen yet. -/
def dedupGo : List (Nat × List Char) → List QCMAnswer → List QCMAnswer
  | _, [] => []
  | seen, a :: rest =>
    if keyOf a ∈ seen then dedupGo seen rest
    else a :: dedupGo (keyOf a :: seen) rest

/-- Strict lexicographic order on `List Char` (the order `localeCompare`
induces on the lowercase answer strings produced by the parser). -/
def lexLtC : List Char → List Char → Bool
  | [], [] => false
  | [], _ :: _ => true
  | _ :: _, [] => false
  | a :: as, b :: bs => if a < b then true else if b < a then false else lexLtC as bs

/-- The sort comparator of `extractQCMAnswers` reads only the question number
and the answer; `ltKey` is "the comparator returns a negative number". -/
def ltKey : Nat × List Char → Nat × List Char → Bool
  | (q1, a1), (q2, a2) => if q1 < q2 then true else if q2 < q1 then false else lexLtC a1 a2

def ltAnswer (x y : QCMAnswer) : Bool := ltKey (keyOf x) (keyOf y)

/-- "x may stay before y" under the comparator: the comparator on `(x, y)` is
not positive.  A stable sort with the source's comparator is exactly an
insertion sort with this test. -/
def leAnswer (x y : QCMAnswer) : Bool := ! ltAnswer y x

/-- Stable insertion: insert `x` before the first element it may precede. -/
def ordInsert {α : Type} (le : α → α → Bool) (x : α) : List α → List α
  | [] => [x]
  | y :: ys => if le x y then x :: y :: ys else y :: ordInsert le x ys

/-- Stable insertion sort.  `Array.prototype.sort` is required (ES2019) to be
stable and, for a consistent comparator, any stable sort produces the same
list, so this models the source's `.sort(...)` calls. -/
def insSort {α : Type} (le : α → α → Bool) : List α → List α
  | [] => []
  | x :: xs => ordInsert le x (insSort le xs)

/-- `QCMPatternService.extractQCMAnswers`: scan all five patterns, expand each
match, deduplicate by `(questionNumber, answer)`, then sort by question number
with ties broken by `localeCompare` on the answer. -/
def extractQCMAnswers (text : List Char) : List QCMAnswer :=
  insSort leAnswer (dedupGo [] ((allMatches text).map candidatesOfMatch).flatten)

/-- `QCMPatternService.containsQCMAnswers`. -/
def containsQCMAnswers (text : List Char) : Bool :=
  decide (0 < (extractQCMAnswers text).length)

/-- `QCMPatternService.getQCMAnswerCount`. -/
def getQCMAnswerCount (text : List Char) : Nat :=
  (extractQCMAnswers text).length



/-! ### Order lemmas for the sort comparator -/

theorem lexLtC_asymm : ∀ a b : List Char, lexLtC a b = true → lexLtC b a = false := by
  intro a
  induction a with
  | nil =>
    intro b h
    cases b with
    | nil => simp [lexLtC] at h
    | cons y ys => simp [lexLtC]
  | cons x xs ih =>
    intro b h
    cases b with
    | nil => simp [lexLtC] at h
    | cons y ys =>
      simp only [lexLtC] at h ⊢
      by_cases h1 : x < y
      · have h2 : ¬ y < x := lt_asymm h1
        simp [h1, h2]
      · by_cases h2 : y < x
        · simp [h1, h2] at h
        · simp only [if_neg h1, if_neg h2] at h ⊢
          exact ih ys h

theorem lexLtC_trans :
    ∀ a b c : List Char, lexLtC a b = true → lexLtC b c = true → lexLtC a c = true := by
  intro a
  induction a with
  | nil =>
    intro b c h1 h2
    cases b with
    | nil => simp [lexLtC] at h1
    | cons y ys =>
      cases c with
      | nil => simp [lexLtC] at h2
      | cons z zs => simp [lexLtC]
  | cons x xs ih =>
    intro b c h1 h2
    cases b with
    | nil => simp [lexLtC] at h1
    | cons y ys =>
      cases c with
      | nil => simp [lexLtC] at h2
      | cons z zs =>
        simp only [lexLtC] at h1 h2 ⊢
        by_cases hxy : x < y
        · by_cases hyz : y < z
          · have : x < z := lt_trans hxy hyz
            simp [this]
          · by_cases hzy : z < y
            · simp [hyz, hzy] at h2
            · have : y = z := le_antisymm (not_lt.mp hzy) (not_lt.mp hyz)
              subst this
              simp [hxy]
        · by_cases hyx : y < x
          · simp [hxy, hyx] at h1
          · have hxyeq : x = y := le_antisymm (not_lt.mp hyx) (not_lt.mp hxy)
            subst hxyeq
            simp only [if_neg hxy, if_neg hyx] at h1
            by_cases hyz : x < z
            · simp [hyz]
            · by_cases hzy : z < x
              · simp [hyz, hzy] at h2
              · simp only [if_neg hyz, if_neg hzy] at h2 ⊢
                exact ih ys zs h1 h2

theorem lexLtC_conn :
    ∀ a b : List Char, lexLtC a b = false → lexLtC b a = false → a = b := by
  intro a
  induction a with
  | nil =>
    intro b h1 _
    cases b with
    | nil => rfl
    | cons y ys => simp [lexLtC] at h1
  | cons x xs ih =>
    intro b h1 h2
    cases b with
    | nil => simp [lexLtC] at h2
    | cons y ys =>
      simp only [lexLtC] at h1 h2
      by_cases hxy : x < y
      · simp [hxy] at h1
      · by_cases hyx : y < x
        · simp [hyx] at h2
        · have hxyeq : x = y := le_antisymm (not_lt.mp hyx) (not_lt.mp hxy)
          subst hxyeq
          simp only [if_neg hxy, if_neg hyx] at h1 h2
          rw [ih ys h1 h2]

theorem ltKey_asymm (k1 k2 : Nat × List Char) (h : ltKey k1 k2 = true) : ltKey k2 k1 = false := by
  obtain ⟨q1, a1⟩ := k1
  obtain ⟨q2, a2⟩ := k2
  simp only [ltKey] at h ⊢
  by_cases hq : q1 < q2
  · have hq2 : ¬ q2 < q1 := Nat.lt_asymm hq
    simp [hq, hq2]
  · by_cases hq2 : q2 < q1
    · simp [hq, hq2] at h
    · simp only [if_neg hq, if_neg hq2] at h ⊢
      exact lexLtC_asymm a1 a2 h

theorem ltKey_trans (k1 k2 k3 : Nat × List Char)
    (h1 : ltKey k1 k2 = true) (h2 : ltKey k2 k3 = true) : ltKey k1 k3 = true := by
  obtain ⟨q1, a1⟩ := k1
  obtain ⟨q2, a2⟩ := k2
  obtain ⟨q3, a3⟩ := k3
  simp only [ltKey] at h1 h2 ⊢
  by_cases hq12 : q1 < q2
  · by_cases hq23 : q2 < q3
    · simp [Nat.lt_trans hq12 hq23]
    · by_cases hq32 : q3 < q2
      · simp [hq23, hq32] at h2
      · have : q2 = q3 := Nat.le_antisymm (Nat.not_lt.mp hq32) (Nat.not_lt.mp hq23)
        subst this
        simp [hq12]
  · by_cases hq21 : q2 < q1
    · simp [hq12, hq21] at h1
    · have : q1 = q2 := Nat.le_antisymm (Nat.not_lt.mp hq21) (Nat.not_lt.mp hq12)
      subst this
      simp only [if_neg hq12, if_neg hq21] at h1
      by_cases hq13 : q1 < q3
      · simp [hq13]
      · by_cases hq31 : q3 < q1
        · simp [hq13, hq31] at h2
        · simp only [if_neg hq13, if_neg hq31] at h2 ⊢
          exact lexLtC_trans a1 a2 a3 h1 h2

theorem ltKey_conn (k1 k2 : Nat × List Char)
    (h1 : ltKey k1 k2 = false) (h2 : ltKey k2 k1 = false) : k1 = k2 := by
  obtain ⟨q1, a1⟩ := k1
  obtain ⟨q2, a2⟩ := k2
  simp only [ltKey] at h1 h2
  by_cases hq12 : q1 < q2
  · simp [hq12] at h1
  · by_cases hq21 : q2 < q1
    · simp [hq21] at h2
    · have hqeq : q1 = q2 := Nat.le_antisymm (Nat.not_lt.mp hq21) (Nat.not_lt.mp hq12)
      subst hqeq
      simp only [if_neg hq12, if_neg hq21] at h1 h2
      rw [lexLtC_conn a1 a2 h1 h2]

theorem leAnswer_total (x y : QCMAnswer) : leAnswer x y = true ∨ leAnswer y x = true := by
  simp only [leAnswer, Bool.not_eq_true']
  by_cases h : ltAnswer y x = true
  · right
    exact ltKey_asymm _ _ h
  · left
    exact Bool.not_eq_true _ ▸ (Bool.eq_false_iff.mpr h)

theorem leAnswer_trans (x y z : QCMAnswer)
    (h1 : leAnswer x y = true) (h2 : leAnswer y z = true) : leAnswer x z = true := by
  simp only [leAnswer, Bool.not_eq_true'] at h1 h2 ⊢
  by_cases hzx : ltAnswer z x = true
  · by_cases hxy : ltAnswer x y = true
    · have := ltKey_trans _ _ _ hzx hxy
      simp only [ltAnswer] at this h2
      rw [this] at h2
      cases h2
    · have hkey : keyOf x = keyOf y :=
        ltKey_conn _ _ (Bool.not_eq_true _ ▸ Bool.eq_false_iff.mpr hxy) h1
      simp only [ltAnswer] at hzx h2 ⊢
      rw [hkey] at hzx
      rw [hzx] at h2
      cases h2
  · exact Bool.not_eq_true _ ▸ Bool.eq_false_iff.mpr hzx

/-! ### Generic facts about stable insertion sort -/

theorem mem_ordInsert {α : Type} (le : α → α → Bool) (x : α) :
    ∀ (l : List α) (a : α), a ∈ ordInsert le x l ↔ a = x ∨ a ∈ l := by
  intro l
  induction l with
  | nil => intro a; simp [ordInsert]
  | cons y ys ih =>
    intro a
    by_cases h : le x y = true
    · simp [ordInsert, h]
    · simp only [ordInsert, if_neg h, List.mem_cons, ih]
      tauto

theorem pairwise_ordInsert {α : Type} (le : α → α → Bool)
    (htot : ∀ a b, le a b = true ∨ le b a = true)
    (htrans : ∀ a b c, le a b = true → le b c = true → le a c = true) (x : α) :
    ∀ l : List α, l.Pairwise (fun a b => le a b = true) →
      (ordInsert le x l).Pairwise (fun a b => le a b = true) := by
  intro l
  induction l with
  | nil => intro _; simp [ordInsert]
  | cons y ys ih =>
    intro h
    rw [List.pairwise_cons] at h
    by_cases hxy : le x y = true
    · rw [ordInsert, if_pos hxy, List.pairwise_cons]
      constructor
      · intro a ha
        rcases List.mem_cons.mp ha with rfl | ha
        · exact hxy
        · exact htrans x y a hxy (h.1 a ha)
      · rw [List.pairwise_cons]
        exact h
    · rw [ordInsert, if_neg hxy, List.pairwise_cons]
      constructor
      · intro a ha
        rcases (mem_ordInsert le x ys a).mp ha with he | ha
        · rw [he]
          rcases htot x y with hx | hy
          · exact absurd hx hxy
          · exact hy
        · exact h.1 a ha
      · exact ih h.2

theorem ordInsert_perm {α : Type} (le : α → α → Bool) (x : α) :
    ∀ l : List α, List.Perm (ordInsert le x l) (x :: l) := by
  intro l
  induction l with
  | nil => simp [ordInsert]
  | cons y ys ih =>
    by_cases h : le x y = true
    · rw [ordInsert, if_pos h]
    · rw [ordInsert, if_neg h]
      exact (List.Perm.cons y ih).trans (List.Perm.swap x y ys)

theorem insSort_perm {α : Type} (le : α → α → Bool) :
    ∀ l : List α, List.Perm (insSort le l) l := by
  intro l
  induction l with
  | nil => simp [insSort]
  | cons x xs ih =>
    exact (ordInsert_perm le x (insSort le xs)).trans (List.Perm.cons x ih)

theorem pairwise_insSort {α : Type} (le : α → α → Bool)
    (htot : ∀ a b, le a b = true ∨ le b a = true)
    (htrans : ∀ a b c, le a b = true → le b c = true → le a c = true) :
    ∀ l : List α, (insSort le l).Pairwise (fun a b => le a b = true) := by
  intro l
  induction l with
  | nil => simp [insSort]
  | cons x xs ih => exact pairwise_ordInsert le htot htrans x _ ih

theorem insSort_of_pairwise {α : Type} (le : α → α → Bool) :
    ∀ l : List α, l.Pairwise (fun a b => le a b = true) → insSort le l = l := by
  intro l
  induction l with
  | nil => intro _; rfl
  | cons x xs ih =>
    intro h
    rw [List.pairwise_cons] at h
    rw [insSort, ih h.2]
    cases xs with
    | nil => rfl
    | cons y ys => rw [ordInsert, if_pos (h.1 y (List.mem_cons_self y ys))]

theorem pairwise_and {α : Type} {R S : α → α → Prop} :
    ∀ {l : List α}, l.Pairwise R → l.Pairwise S → l.Pairwise (fun a b => R a b ∧ S a b) := by
  intro l
  induction l with
  | nil => intro _ _; exact List.Pairwise.nil
  | cons x xs ih =>
    intro h1 h2
    rw [List.pairwise_cons] at h1 h2 ⊢
    exact ⟨fun a ha => ⟨h1.1 a ha, h2.1 a ha⟩, ih h1.2 h2.2⟩

/-! ### The dedup pass -/

theorem dedupGo_spec :
    ∀ (l : List QCMAnswer) (seen : List (Nat × List Char)),
      (dedupGo seen l).Pairwise (fun a b => keyOf a ≠ keyOf b) ∧
        ∀ a ∈ dedupGo seen l, keyOf a ∉ seen := by
  intro l
  induction l with
  | nil => intro seen; simp [dedupGo]
  | cons a rest ih =>
    intro seen
    by_cases h : keyOf a ∈ seen
    · rw [dedupGo, if_pos h]
      exact ih seen
    · rw [dedupGo, if_neg h]
      refine ⟨?_, ?_⟩
      · rw [List.pairwise_cons]
        refine ⟨?_, (ih (keyOf a :: seen)).1⟩
        intro b hb he
        exact (ih (keyOf a :: seen)).2 b hb (he ▸ List.mem_cons_self _ _)
      · intro b hb
        rcases List.mem_cons.mp hb with rfl | hb
        · exact h
        · intro hbs
          exact (ih (keyOf a :: seen)).2 b hb (List.mem_cons_of_mem _ hbs)

/-! ### Claims about the extractor -/

/-- C2: for every input text, `extractQCMAnswers` returns a list that is
strictly ascending in `(questionNumber, answer)` — i.e. sorted by question
number ascending with ties broken by the answer ascending, and containing no
duplicate `(questionNumber, answer)` pairs — and the result is empty whenever
no pattern matches.  (The embedding is a total function, matching the
source, which cannot throw on any input.) -/
theorem extract_sorted_nodup (text : List Char) :
    (extractQCMAnswers text).Pairwise (fun a b => ltAnswer a b = true) ∧
      (allMatches text = [] → extractQCMAnswers text = []) := by
  constructor
  · unfold extractQCMAnswers
    have hperm := insSort_perm leAnswer (dedupGo [] ((allMatches text).map candidatesOfMatch).flatten)
    have hkeys : (dedupGo [] ((allMatches text).map candidatesOfMatch).flatten).Pairwise
        (fun a b => keyOf a ≠ keyOf b) := (dedupGo_spec _ []).1
    have hsym : Symmetric (fun a b : QCMAnswer => keyOf a ≠ keyOf b) :=
      fun a b h he => h he.symm
    have hkeys2 : (insSort leAnswer (dedupGo [] ((allMatches text).map candidatesOfMatch).flatten)).Pairwise
        (fun a b => keyOf a ≠ keyOf b) := (hperm.pairwise_iff (fun hab => hsym hab)).mpr hkeys
    have hsorted := pairwise_insSort leAnswer leAnswer_total leAnswer_trans
      (dedupGo [] ((allMatches text).map candidatesOfMatch).flatten)
    refine (pairwise_and hsorted hkeys2).imp ?_
    intro a b hab
    by_cases h : ltAnswer a b = true
    · exact h
    · exfalso
      have hba : ltAnswer b a = false := by
        have := hab.1
        simpa [leAnswer, Bool.not_eq_true'] using this
      exact hab.2 (ltKey_conn _ _ (Bool.eq_false_iff.mpr h) hba)
  · intro h
    simp [extractQCMAnswers, h, dedupGo, insSort]

/-- Witness for C2 at a concrete no-match input. -/
theorem extract_sorted_nodup_witness :
    (extractQCMAnswers ("no answers here".data)).Pairwise (fun a b => ltAnswer a b = true) ∧
      extractQCMAnswers ("no answers here".data) = [] :=
  ⟨(extract_sorted_nodup ("no answers here".data)).1,
    (extract_sorted_nodup ("no answers here".data)).2 (by decide)⟩

/-- C10: `containsQCMAnswers` is true exactly when `extractQCMAnswers` returns
a non-empty list, and `getQCMAnswerCount` is its length. -/
theorem contains_and_count_agree_with_extract (text : List Char) :
    (containsQCMAnswers text = true ↔ extractQCMAnswers text ≠ []) ∧
      getQCMAnswerCount text = (extractQCMAnswers text).length := by
  refine ⟨?_, rfl⟩
  unfold containsQCMAnswers
  rw [decide_eq_true_eq]
  exact List.length_pos

/-- C9: a notation match whose lowercased letter payload contains a comma is
split on commas; each segment is trimmed, empty segments are dropped, and each
remaining segment becomes one independent answer for the same question number,
in order.  Concretely, `extract("1-b,c")` yields exactly `(1,b),(1,c)`. -/
theorem comma_payload_expansion (rm : RawMatch)
    (h : (rm.payload.map toLowerAscii).contains ',' = true) :
    (candidatesOfMatch rm).map keyOf =
      (((splitComma (rm.payload.map toLowerAscii)).map trimC).filter (fun a => !a.isEmpty)).map
        (fun s => (rm.questionNumber, s)) ∧
      (extractQCMAnswers ("1-b,c".data)).map keyOf = [(1, "b".data), (1, "c".data)] := by
  constructor
  · simp only [candidatesOfMatch]
    rw [h]
    simp [keyOf, List.map_map, Function.comp]
  · decide

/-- Witness for C9 at the match produced by "1-b,c". -/
theorem comma_payload_expansion_witness :
    ((candidatesOfMatch ⟨1, "b,c".data, "1-b,c".data⟩).map keyOf =
      (((splitComma (("b,c".data).map toLowerAscii)).map trimC).filter (fun a => !a.isEmpty)).map
        (fun s => ((1 : Nat), s)) ∧
      (extractQCMAnswers ("1-b,c".data)).map keyOf = [(1, "b".data), (1, "c".data)]) :=
  comma_payload_expansion ⟨1, "b,c".data, "1-b,c".data⟩ (by decide)

/-- C1 counterexample: the source does NOT expand a comma-free run of several
consecutive letters into one answer per letter.  `extract("1/AB\n2-BC")`
returns the two multi-letter answers `(1,"ab")` and `(2,"bc")` — not the four
single-letter answers `(1,a),(1,b),(2,b),(2,c)` the claim requires — so not
every extracted element carries a single letter. -/
theorem extract_no_consecutive_letter_expansion :
    (extractQCMAnswers ("1/AB\n2-BC".data)).map keyOf = [(1, "ab".data), (2, "bc".data)] ∧
      ¬ ∀ a ∈ extractQCMAnswers ("1/AB\n2-BC".data), a.answer.length = 1 := by
  exact ⟨by decide, by decide⟩

/-- C1 amended: a notation match whose lowercased payload contains no comma is
kept as ONE answer whose `answer` field is the entire lowercased letter run
(single-letter payloads therefore give single-letter answers, but a run such
as "AB" stays whole); in particular `extract("1/AB\n2-BC")` returns exactly
`[(1,"ab"), (2,"bc")]`. -/
theorem extract_keeps_letter_runs_whole (rm : RawMatch)
    (h : (rm.payload.map toLowerAscii).contains ',' = false) :
    candidatesOfMatch rm = [⟨rm.questionNumber, rm.payload.map toLowerAscii, rm.whole⟩] ∧
      (extractQCMAnswers ("1/AB\n2-BC".data)).map keyOf = [(1, "ab".data), (2, "bc".data)] := by
  constructor
  · simp only [candidatesOfMatch]
    rw [h]
    simp
  · decide

/-- Witness for the amended C1 at the match produced by "1/AB". -/
theorem extract_keeps_letter_runs_whole_witness :
    (candidatesOfMatch ⟨1, "AB".data, "1/AB".data⟩ =
      [⟨1, ("AB".data).map toLowerAscii, "1/AB".data⟩] ∧
      (extractQCMAnswers ("1/AB\n2-BC".data)).map keyOf = [(1, "ab".data), (2, "bc".data)]) :=
  extract_keeps_letter_runs_whole ⟨1, "AB".data, "1/AB".data⟩ (by decide)

/-! ### HapticService: pulse-level encoding

`HapticService` (embedded below) turns answer letters and question numbers into
sequences of haptic effector calls.  A `custom`/`maximum` pattern is executed
on the Android path as `Vibration.vibrate(duration)` followed by an await of
the same duration — one physical pulse of that duration, modelled as
`HapticEv.vib`; all other patterns fall back to `Haptics.impactAsync`
(`HapticEv.impact`); `delay(ms)` is `HapticEv.wait`.  `executeVibrationPattern`
swallows every effector error internally (it has its own try/catch whose
fallback is itself guarded), so haptic calls never reject outward. -/

inductive Intensity
  | light
  | medium
  | heavy
  | maximum
deriving DecidableEq

inductive PatKind
  | short
  | medium
  | long
  | custom
deriving DecidableEq

/-- The `VibrationPattern` record. -/
structure VibrationPattern where
  type : PatKind
  intensity : Option Intensity
  delay : Option Int
  duration : Option Int
deriving DecidableEq

/-- The `QCMVibrationSettings` record; `answerPatterns` is keyed by the
lowercased answer string (the source object has exactly the keys a–e, all
other lookups are undefined).  -/
structure QCMVibrationSettings where
  enabled : Bool
  answerPatterns : List Char → Option (List VibrationPattern)
  questionNumberPattern : List VibrationPattern
  separatorPattern : List VibrationPattern
  delayBetweenAnswers : Int
  delayBetweenQuestions : Int

/-- A single haptic effector step. -/
inductive HapticEv
  | vib (durationMs : Int)
  | impact (style : Intensity)
  | wait (ms : Int)
deriving DecidableEq

namespace HapticService

/-- Shorthand for the `{ type: 'custom', intensity: 'maximum', duration, delay }`
entries used throughout `defaultSettings`. -/
def maxPulse (dur : Int) (del : Option Int) : VibrationPattern :=
  ⟨PatKind.custom, some Intensity.maximum, del, some dur⟩

/-- `defaultSettings.answerPatterns`: a=1, b=2, c=3, d=4, e=5 pulses of
1000 ms, later pulses carrying a 200 ms delay. -/
def defaultAnswerPatterns (key : List Char) : Option (List VibrationPattern) :=
  if key = "a".data then some [maxPulse 1000 none]
  else if key = "b".data then some [maxPulse 1000 none, maxPulse 1000 (some 200)]
  else if key = "c".data then
    some [maxPulse 1000 none, maxPulse 1000 (some 200), maxPulse 1000 (some 200)]
  else if key = "d".data then
    some [maxPulse 1000 none, maxPulse 1000 (some 200), maxPulse 1000 (some 200),
      maxPulse 1000 (some 200)]
  else if key = "e".data then
    some [maxPulse 1000 none, maxPulse 1000 (some 200), maxPulse 1000 (some 200),
      maxPulse 1000 (some 200), maxPulse 1000 (some 200)]
  else none

/-- `HapticService.defaultSettings`. -/
def defaultSettings : QCMVibrationSettings :=
  ⟨true, defaultAnswerPatterns, [maxPulse 1000 none],
    [⟨PatKind.custom, some Intensity.heavy, none, some 5000⟩], 500, 1200⟩

/-- `getHapticType`. -/
def getHapticType (k : PatKind) (i : Option Intensity) : Intensity :=
  if i = some Intensity.maximum then Intensity.heavy
  else if k = PatKind.long ∨ k = PatKind.custom then Intensity.heavy
  else
    match i with
    | some Intensity.light => Intensity.light
    | some Intensity.heavy => Intensity.heavy
    | _ => Intensity.medium

/-- `executeVibrationPattern` (Android path for `custom`/`maximum`; the iOS
path renders the same logical pulse as a burst of short segments and is a
hardware detail outside this embedding). -/
def executeVibrationPattern (s : QCMVibrationSettings) (p : VibrationPattern) : List HapticEv :=
  if s.enabled = false then []
  else if p.type = PatKind.custom ∧ p.intensity = some Intensity.maximum then
    [HapticEv.vib (p.duration.getD 500)]
  else
    HapticEv.impact (getHapticType p.type p.intensity) ::
      (if p.intensity = some Intensity.heavy ∨ p.intensity = some Intensity.maximum then
        [HapticEv.wait 50, HapticEv.impact Intensity.heavy, HapticEv.wait 50]
      else [])

/-- JS truthiness of `pattern.delay` (`undefined` and `0` are falsy). -/
def truthyDelay (p : VibrationPattern) : Bool :=
  match p.delay with
  | none => false
  | some d => decide (d ≠ 0)

/-- The indexed loop of `executeVibrationSequence`. -/
def runSeq (s : QCMVibrationSettings) : List VibrationPattern → Nat → List HapticEv
  | [], _ => []
  | p :: rest, i =>
    (if 0 < i ∧ truthyDelay p = true then [HapticEv.wait (p.delay.getD 0)] else []) ++
      executeVibrationPattern s p ++ runSeq s rest (i + 1)

/-- `executeVibrationSequence`. -/
def executeVibrationSequence (s : QCMVibrationSettings) (ps : List VibrationPattern) : List HapticEv :=
  runSeq s ps 0

/-- `vibrateForAnswer`: look the lowercased answer up in `answerPatterns`;
unknown answers produce no vibration (the source logs a warning and returns). -/
def vibrateForAnswer (s : QCMVibrationSettings) (answer : List Char) : List HapticEv :=
  match s.answerPatterns (answer.map toLowerAscii) with
  | none => []
  | some ps => executeVibrationSequence s ps

/-- The `numberPatterns` array built inside `vibrateForQuestionNumber`:
one `maxPulse` per unit of `min questionNumber 10`, with a 200 ms delay on
every pulse but the first. -/
def numberPatterns (questionNumber : Nat) : List VibrationPattern :=
  (List.range (min questionNumber 10)).map
    (fun i => maxPulse 1000 (some (if 0 < i then 200 else 0)))

/-- `vibrateForQuestionNumber`: the marker pulse (`questionNumberPattern`), a
200 ms delay, then the capped count of number pulses. -/
def vibrateForQuestionNumber (s : QCMVibrationSettings) (questionNumber : Nat) : List HapticEv :=
  executeVibrationSequence s s.questionNumberPattern ++
    HapticEv.wait 200 :: executeVibrationSequence s (numberPatterns questionNumber)

end HapticService

/-- The tail of a pulse train: `m` repetitions of gap-then-pulse. -/
def pulseTail : Nat → List HapticEv
  | 0 => []
  | m + 1 => HapticEv.wait 200 :: HapticEv.vib 1000 :: pulseTail m

/-- `n` identical 1000 ms pulses separated by 200 ms gaps. -/
def pulseTrain : Nat → List HapticEv
  | 0 => []
  | m + 1 => HapticEv.vib 1000 :: pulseTail m

/-- The ordinal position of an answer letter (a=1 … e=5). -/
def answerOrd (c : Char) : Nat :=
  if c = 'a' then 1
  else if c = 'b' then 2
  else if c = 'c' then 3
  else if c = 'd' then 4
  else if c = 'e' then 5
  else 0

theorem runSeq_replicate (m : Nat) :
    ∀ i : Nat, HapticService.runSeq HapticService.defaultSettings
      (List.replicate m (HapticService.maxPulse 1000 (some 200))) (i + 1) = pulseTail m := by
  induction m with
  | zero => intro i; rfl
  | succ m ih =>
    intro i
    rw [List.replicate_succ, HapticService.runSeq]
    rw [ih (i + 1)]
    simp [HapticService.truthyDelay, HapticService.maxPulse,
      HapticService.executeVibrationPattern, HapticService.defaultSettings, pulseTail]

theorem numberPatterns_eq (m : Nat) (hm : 0 < m) :
    (List.range m).map (fun i => HapticService.maxPulse 1000 (some (if 0 < i then 200 else 0))) =
      HapticService.maxPulse 1000 (some 0) ::
        List.replicate (m - 1) (HapticService.maxPulse 1000 (some 200)) := by
  induction m with
  | zero => cases hm
  | succ m ih =>
    cases Nat.eq_zero_or_pos m with
    | inl h0 => subst h0; rfl
    | inr hpos =>
      rw [List.range_succ, List.map_append, ih hpos]
      have h1 : 0 < m := hpos
      have : (if 0 < m then (200 : Int) else 0) = 200 := if_pos h1
      simp only [List.map_cons, List.map_nil, this]
      have hrep : List.replicate (m + 1 - 1) (HapticService.maxPulse 1000 (some 200)) =
          List.replicate (m - 1) (HapticService.maxPulse 1000 (some 200)) ++
            [HapticService.maxPulse 1000 (some 200)] := by
        have hm1 : m + 1 - 1 = (m - 1) + 1 := by omega
        rw [hm1, List.replicate_succ']
      rw [hrep]
      rfl

/-- C8: under the default settings, `vibrateForAnswer` emits exactly
`answerOrd` many 1000 ms maximum pulses with a 200 ms gap between consecutive
pulses (a=1 … e=5), and for `N ≥ 1`, `vibrateForQuestionNumber N` emits one
1000 ms marker pulse followed (after the same 200 ms gap) by `min N 10`
pulses of the same duration and gap spacing. -/
theorem haptic_encoding_counts (l : Char) (hl : l ∈ ['a', 'b', 'c', 'd', 'e'])
    (n : Nat) (hn : 1 ≤ n) :
    HapticService.vibrateForAnswer HapticService.defaultSettings [l] = pulseTrain (answerOrd l) ∧
      HapticService.vibrateForQuestionNumber HapticService.defaultSettings n =
        HapticEv.vib 1000 :: HapticEv.wait 200 :: pulseTrain (min n 10) := by
  constructor
  · simp only [List.mem_cons, List.not_mem_nil, or_false] at hl
    rcases hl with rfl | rfl | rfl | rfl | rfl
    · decide
    · decide
    · decide
    · decide
    · decide
  · rw [HapticService.vibrateForQuestionNumber]
    have hmark : HapticService.executeVibrationSequence HapticService.defaultSettings
        HapticService.defaultSettings.questionNumberPattern = [HapticEv.vib 1000] := by decide
    rw [hmark]
    have hmpos : 0 < min n 10 := by omega
    rw [HapticService.executeVibrationSequence, HapticService.numberPatterns,
      numberPatterns_eq (min n 10) hmpos, HapticService.runSeq]
    have hms : min n 10 - 1 + 1 = min n 10 := by omega
    rw [runSeq_replicate (min n 10 - 1) 0]
    have htrain : pulseTrain (min n 10) = HapticEv.vib 1000 :: pulseTail (min n 10 - 1) := by
      conv_lhs => rw [← hms]
      rfl
    rw [htrain]
    simp [HapticService.truthyDelay, HapticService.maxPulse,
      HapticService.executeVibrationPattern, HapticService.defaultSettings]

/-- Witness for C8 at letter c and question number 12. -/
theorem haptic_encoding_counts_witness :
    HapticService.vibrateForAnswer HapticService.defaultSettings ['c'] = pulseTrain (answerOrd 'c') ∧
      HapticService.vibrateForQuestionNumber HapticService.defaultSettings 12 =
        HapticEv.vib 1000 :: HapticEv.wait 200 :: pulseTrain (min 12 10) :=
  haptic_encoding_counts 'c' (by decide) 12 (by decide)

/-! ### QCMVibrationFlashService: the sequencer

`processQCMWithFlashSeparation` (the configuration-driven revision the claims
cite) is embedded as a trace semantics: every awaited service call becomes one
`SeqEv` step, in execution order.  Haptic calls never reject (see above), so
the only effector call that can reject is `FlashlightService.flash`; the
oracle `fail : Nat → Bool` says whether the k-th flash call of a run rejects.
The source function has no cancellation input of any kind: no flag is checked
between steps, and `emergencyStop` only turns the flashlight off without
stopping the loop. -/

/-- The `QCMVibrationFlashSettings` record. -/
structure QCMVibrationFlashSettings where
  enableVibration : Bool
  enableFlashlight : Bool
  flashlightSeparatorDuration : Int
  delayBetweenAnswers : Int
  delayAfterSeparator : Int
deriving DecidableEq

/-- `Partial<QCMVibrationFlashSettings>`: the optional settings argument. -/
structure PartialQCMSettings where
  enableVibration : Option Bool
  enableFlashlight : Option Bool
  flashlightSeparatorDuration : Option Int
  delayBetweenAnswers : Option Int
  delayAfterSeparator : Option Int
deriving DecidableEq

/-- One awaited service call of the sequencer. -/
inductive SeqEv
  | vibAnswer (ans : List Char)
  | vibQuestionNumber (n : Nat)
  | pause (ms : Int)
  | flash (ms : Int)
  | emergencyOff
deriving DecidableEq

def isFlashEv : SeqEv → Bool
  | SeqEv.flash _ => true
  | _ => false

def isAnswerEv : SeqEv → Bool
  | SeqEv.vibAnswer _ => true
  | _ => false

def isQuestionNumberEv : SeqEv → Bool
  | SeqEv.vibQuestionNumber _ => true
  | _ => false

def countFlash : List SeqEv → Nat
  | [] => 0
  | e :: r => (if isFlashEv e then 1 else 0) + countFlash r

/-- The oracle of a run in which no flash call rejects. -/
def noFailOracle : Nat → Bool := fun _ => false

/-- `HapticService.vibrateForQCMAnswer` at the same service-call granularity
(question-number encoding, `delayBetweenAnswers` pause, letter encoding); the
alternative playback path of the app uses it, the sequencer below does not. -/
def vibrateForQCMAnswerCalls (s : QCMVibrationSettings) (questionNumber : Nat)
    (answer : List Char) : List SeqEv :=
  [SeqEv.vibQuestionNumber questionNumber, SeqEv.pause s.delayBetweenAnswers,
    SeqEv.vibAnswer answer]

namespace QCMVibrationFlashService

/-- `QCMVibrationFlashService.defaultSettings`. -/
def defaultSettings : QCMVibrationFlashSettings := ⟨true, true, 500, 1000, 300⟩

/-- The spread `{ ...this.defaultSettings, ...settings }`.  No validation of
any kind is performed on the supplied values. -/
def mergeSettings (s : PartialQCMSettings) : QCMVibrationFlashSettings :=
  ⟨s.enableVibration.getD defaultSettings.enableVibration,
    s.enableFlashlight.getD defaultSettings.enableFlashlight,
    s.flashlightSeparatorDuration.getD defaultSettings.flashlightSeparatorDuration,
    s.delayBetweenAnswers.getD defaultSettings.delayBetweenAnswers,
    s.delayAfterSeparator.getD defaultSettings.delayAfterSeparator⟩

/-- The `Map.has`/`Map.set` insertion of `groupAnswersByQuestion`: record a
question number the first time it is seen. -/
def insertKey (ks : List Nat) (k : Nat) : List Nat :=
  if k ∈ ks then ks else ks ++ [k]

/-- The key set of the grouping `Map`, in insertion order. -/
def questionKeys (answers : List QCMAnswer) : List Nat :=
  answers.foldl (fun ks a => insertKey ks a.questionNumber) []

/-- The within-group comparator `(a, b) => a.answer.localeCompare(b.answer)`:
`a` may stay before `b` when the comparator is not positive. -/
def leByAnswer (x y : QCMAnswer) : Bool := ! lexLtC y.answer x.answer

/-- `groupAnswersByQuestion`: group by question number (`Map` insertion keeps
each group in input order), sort the key list numerically ascending, and sort
each group by `localeCompare` on the answer. -/
def groupAnswersByQuestion (answers : List QCMAnswer) : List (Nat × List QCMAnswer) :=
  (insSort (fun a b => decide (a ≤ b)) (questionKeys answers)).map
    (fun q => (q, insSort leByAnswer (answers.filter (fun a => decide (a.questionNumber = q)))))

/-- The inner answer loop of `processQCMWithFlashSeparation`: vibrate for the
answer if vibration is enabled; if this is not the last answer of the group
and the flashlight is enabled, pause `delayAfterSeparator`, flash
`flashlightSeparatorDuration` (the `k`-th flash call, which may reject) and
pause `delayAfterSeparator` again. -/
def runGroupAnswers (cfg : QCMVibrationFlashSettings) (fail : Nat → Bool) :
    List QCMAnswer → Nat → List SeqEv × Nat × Option Nat
  | [], k => ([], k, none)
  | a :: rest, k =>
    let vib := if cfg.enableVibration then [SeqEv.vibAnswer a.answer] else []
    if rest.isEmpty then (vib, k, none)
    else if cfg.enableFlashlight then
      if fail k then (vib ++ [SeqEv.pause cfg.delayAfterSeparator], k + 1, some k)
      else
        match runGroupAnswers cfg fail rest (k + 1) with
        | (t, k2, r) =>
          (vib ++ SeqEv.pause cfg.delayAfterSeparator ::
            SeqEv.flash cfg.flashlightSeparatorDuration ::
            SeqEv.pause cfg.delayAfterSeparator :: t, k2, r)
    else
      match runGroupAnswers cfg fail rest k with
      | (t, k2, r) => (vib ++ t, k2, r)

/-- The outer group loop: play each group; after every group but the last,
pause `delayBetweenAnswers` (the source uses that field between questions).
A failure inside a group aborts the remaining groups. -/
def runGroups (cfg : QCMVibrationFlashSettings) (fail : Nat → Bool) :
    List (Nat × List QCMAnswer) → Nat → List SeqEv × Nat × Option Nat
  | [], k => ([], k, none)
  | g :: rest, k =>
    match runGroupAnswers cfg fail g.2 k with
    | (t1, k1, some j) => (t1, k1, some j)
    | (t1, k1, none) =>
      if rest.isEmpty then (t1, k1, none)
      else
        match runGroups cfg fail rest k1 with
        | (t2, k2, r) => (t1 ++ SeqEv.pause cfg.delayBetweenAnswers :: t2, k2, r)

/-- `processQCMWithFlashSeparation`: merge the settings, group, run the loops;
the `catch` block appends the `FlashlightService.emergencyOff()` cleanup call
and rethrows the original error (identified by the index of the rejecting
flash call). -/
def processQCMWithFlashSeparation (answers : List QCMAnswer)
    (settings : PartialQCMSettings) (fail : Nat → Bool) : List SeqEv × Option Nat :=
  let config := mergeSettings settings
  match runGroups config fail (groupAnswersByQuestion answers) 0 with
  | (t, _, none) => (t, none)
  | (t, _, some j) => (t ++ [SeqEv.emergencyOff], some j)

/-- The source exposes no cancellation input: `processQCMWithFlashSeparation`
takes only answers and settings, and its loops check no flag between steps.
A caller-side cancellation request schedule (`cancelRequested i` = "the caller
has requested cancellation before step `i`") therefore cannot influence the
run; this wrapper makes that explicit. -/
def processQCMWithCancellation (answers : List QCMAnswer)
    (settings : PartialQCMSettings) (fail : Nat → Bool)
    (cancelRequested : Nat → Bool) : List SeqEv × Option Nat :=
  processQCMWithFlashSeparation answers settings fail

/-- The failure-free trace of one group (the `PulseTimeline` fragment). -/
def groupTimeline (cfg : QCMVibrationFlashSettings) : List QCMAnswer → List SeqEv
  | [] => []
  | a :: rest =>
    let vib := if cfg.enableVibration then [SeqEv.vibAnswer a.answer] else []
    if rest.isEmpty then vib
    else if cfg.enableFlashlight then
      vib ++ SeqEv.pause cfg.delayAfterSeparator ::
        SeqEv.flash cfg.flashlightSeparatorDuration ::
        SeqEv.pause cfg.delayAfterSeparator :: groupTimeline cfg rest
    else vib ++ groupTimeline cfg rest

/-- The failure-free trace of a group list, with the inter-question pause. -/
def timelineOfGroups (cfg : QCMVibrationFlashSettings) : List (Nat × List QCMAnswer) → List SeqEv
  | [] => []
  | g :: rest =>
    if rest.isEmpty then groupTimeline cfg g.2
    else
      groupTimeline cfg g.2 ++ SeqEv.pause cfg.delayBetweenAnswers :: timelineOfGroups cfg rest

/-- The deterministic `PulseTimeline` of one run. -/
def timelineOf (answers : List QCMAnswer) (cfg : QCMVibrationFlashSettings) : List SeqEv :=
  timelineOfGroups cfg (groupAnswersByQuestion answers)

/-- Replay a timeline against the flash-failure oracle: non-flash steps always
complete; the `k`-th flash call completes when `fail k` is false and otherwise
aborts the run, reporting `k` as the cause. -/
def replaySeq (fail : Nat → Bool) : List SeqEv → Nat → List SeqEv × Nat × Option Nat
  | [], k => ([], k, none)
  | e :: rest, k =>
    if isFlashEv e then
      if fail k then ([], k + 1, some k)
      else
        match replaySeq fail rest (k + 1) with
        | (t, k2, r) => (e :: t, k2, r)
    else
      match replaySeq fail rest k with
      | (t, k2, r) => (e :: t, k2, r)

theorem replaySeq_nil (fail : Nat → Bool) (k : Nat) : replaySeq fail [] k = ([], k, none) := rfl

theorem replaySeq_cons_nonflash (fail : Nat → Bool) (e : SeqEv) (rest : List SeqEv) (k : Nat)
    (h : isFlashEv e = false) :
    replaySeq fail (e :: rest) k =
      (e :: (replaySeq fail rest k).1, (replaySeq fail rest k).2) := by
  rcases hx : replaySeq fail rest k with ⟨t, k2, r⟩
  simp [replaySeq, h, hx]

theorem replaySeq_cons_flash_ok (fail : Nat → Bool) (e : SeqEv) (rest : List SeqEv) (k : Nat)
    (h : isFlashEv e = true) (hk : fail k = false) :
    replaySeq fail (e :: rest) k =
      (e :: (replaySeq fail rest (k + 1)).1, (replaySeq fail rest (k + 1)).2) := by
  rcases hx : replaySeq fail rest (k + 1) with ⟨t, k2, r⟩
  simp [replaySeq, h, hk, hx]

theorem replaySeq_cons_flash_fail (fail : Nat → Bool) (e : SeqEv) (rest : List SeqEv) (k : Nat)
    (h : isFlashEv e = true) (hk : fail k = true) :
    replaySeq fail (e :: rest) k = ([], k + 1, some k) := by
  simp [replaySeq, h, hk]

/-- Sequential composition of replay results: run the continuation only when
the first part completed. -/
def seqComp (x : List SeqEv × Nat × Option Nat)
    (f : Nat → List SeqEv × Nat × Option Nat) : List SeqEv × Nat × Option Nat :=
  match x with
  | (a, k1, none) => (a ++ (f k1).1, (f k1).2)
  | (a, k1, some j) => (a, k1, some j)

theorem replaySeq_append (fail : Nat → Bool) :
    ∀ (t1 t2 : List SeqEv) (k : Nat),
      replaySeq fail (t1 ++ t2) k = seqComp (replaySeq fail t1 k) (replaySeq fail t2) := by
  intro t1
  induction t1 with
  | nil =>
    intro t2 k
    rw [List.nil_append, replaySeq_nil, seqComp]
    simp
  | cons e rest ih =>
    intro t2 k
    by_cases hf : isFlashEv e = true
    · by_cases hk : fail k = true
      · rw [List.cons_append, replaySeq_cons_flash_fail fail e (rest ++ t2) k hf hk,
          replaySeq_cons_flash_fail fail e rest k hf hk, seqComp]
      · have hk2 : fail k = false := Bool.eq_false_iff.mpr hk
        rw [List.cons_append, replaySeq_cons_flash_ok fail e (rest ++ t2) k hf hk2,
          replaySeq_cons_flash_ok fail e rest k hf hk2, ih t2 (k + 1)]
        rcases hx : replaySeq fail rest (k + 1) with ⟨a, k1, r⟩
        cases r with
        | none => simp [seqComp]
        | some j => simp [seqComp]
    · have hf2 : isFlashEv e = false := Bool.eq_false_iff.mpr hf
      rw [List.cons_append, replaySeq_cons_nonflash fail e (rest ++ t2) k hf2,
        replaySeq_cons_nonflash fail e rest k hf2, ih t2 k]
      rcases hx : replaySeq fail rest k with ⟨a, k1, r⟩
      cases r with
      | none => simp [seqComp]
      | some j => simp [seqComp]

theorem replaySeq_append_ok (fail : Nat → Bool) (t1 : List SeqEv) (k : Nat)
    (a : List SeqEv) (k1 : Nat) (h : replaySeq fail t1 k = (a, k1, none)) (t2 : List SeqEv) :
    replaySeq fail (t1 ++ t2) k = (a ++ (replaySeq fail t2 k1).1, (replaySeq fail t2 k1).2) := by
  rw [replaySeq_append fail t1 t2 k, h, seqComp]

theorem replaySeq_append_fail (fail : Nat → Bool) (t1 : List SeqEv) (k : Nat)
    (a : List SeqEv) (k1 j : Nat) (h : replaySeq fail t1 k = (a, k1, some j)) (t2 : List SeqEv) :
    replaySeq fail (t1 ++ t2) k = (a, k1, some j) := by
  rw [replaySeq_append fail t1 t2 k, h, seqComp]

theorem replaySeq_noFail :
    ∀ (t : List SeqEv) (k : Nat), replaySeq noFailOracle t k = (t, k + countFlash t, none) := by
  intro t
  induction t with
  | nil => intro k; simp [replaySeq_nil, countFlash]
  | cons e rest ih =>
    intro k
    by_cases hf : isFlashEv e = true
    · rw [replaySeq_cons_flash_ok noFailOracle e rest k hf rfl, ih (k + 1)]
      simp [countFlash, hf]
      omega
    · rw [replaySeq_cons_nonflash noFailOracle e rest k (Bool.eq_false_iff.mpr hf), ih k]
      simp [countFlash, hf]

theorem replaySeq_fail_spec (fail : Nat → Bool) :
    ∀ (t : List SeqEv) (k : Nat) (a : List SeqEv) (k2 j : Nat),
      replaySeq fail t k = (a, k2, some j) →
      (∃ m, m < t.length ∧ a = t.take m) ∧ fail j = true ∧ k ≤ j ∧
        ∀ i, k ≤ i → i < j → fail i = false := by
  intro t
  induction t with
  | nil =>
    intro k a k2 j h
    rw [replaySeq_nil] at h
    simp at h
  | cons e rest ih =>
    intro k a k2 j h
    by_cases hf : isFlashEv e = true
    · by_cases hk : fail k = true
      · rw [replaySeq_cons_flash_fail fail e rest k hf hk] at h
        simp only [Prod.mk.injEq, Option.some.injEq] at h
        obtain ⟨h1, -, h3⟩ := h
        subst h1
        subst h3
        refine ⟨⟨0, by simp, rfl⟩, hk, Nat.le_refl k, ?_⟩
        intro i hi1 hi2
        omega
      · rw [replaySeq_cons_flash_ok fail e rest k hf (Bool.eq_false_iff.mpr hk)] at h
        rcases hx : replaySeq fail rest (k + 1) with ⟨t1, k3, r⟩
        rw [hx] at h
        simp only [Prod.mk.injEq] at h
        obtain ⟨h1, -, h3⟩ := h
        subst h1
        subst h3
        obtain ⟨⟨m, hm, hmeq⟩, hfj, hkj, hmin⟩ := ih (k + 1) t1 k3 j hx
        refine ⟨⟨m + 1, by simpa using hm, by simp [hmeq]⟩, hfj, by omega, ?_⟩
        intro i hi1 hi2
        rcases Nat.eq_or_lt_of_le hi1 with rfl | hlt
        · exact Bool.eq_false_iff.mpr hk
        · exact hmin i hlt hi2
    · rw [replaySeq_cons_nonflash fail e rest k (Bool.eq_false_iff.mpr hf)] at h
      rcases hx : replaySeq fail rest k with ⟨t1, k3, r⟩
      rw [hx] at h
      simp only [Prod.mk.injEq] at h
      obtain ⟨h1, -, h3⟩ := h
      subst h1
      subst h3
      obtain ⟨⟨m, hm, hmeq⟩, hfj, hkj, hmin⟩ := ih k t1 k3 j hx
      exact ⟨⟨m + 1, by simpa using hm, by simp [hmeq]⟩, hfj, hkj, hmin⟩

theorem runGroupAnswers_cons2 (cfg : QCMVibrationFlashSettings) (fail : Nat → Bool)
    (a b : QCMAnswer) (bs : List QCMAnswer) (k : Nat) :
    runGroupAnswers cfg fail (a :: b :: bs) k =
      (if cfg.enableFlashlight then
        if fail k then
          ((if cfg.enableVibration then [SeqEv.vibAnswer a.answer] else []) ++
            [SeqEv.pause cfg.delayAfterSeparator], k + 1, some k)
        else
          ((if cfg.enableVibration then [SeqEv.vibAnswer a.answer] else []) ++
            SeqEv.pause cfg.delayAfterSeparator ::
            SeqEv.flash cfg.flashlightSeparatorDuration ::
            SeqEv.pause cfg.delayAfterSeparator ::
            (runGroupAnswers cfg fail (b :: bs) (k + 1)).1,
            (runGroupAnswers cfg fail (b :: bs) (k + 1)).2)
      else
        ((if cfg.enableVibration then [SeqEv.vibAnswer a.answer] else []) ++
          (runGroupAnswers cfg fail (b :: bs) k).1,
          (runGroupAnswers cfg fail (b :: bs) k).2)) := rfl

theorem groupTimeline_cons2 (cfg : QCMVibrationFlashSettings) (a b : QCMAnswer)
    (bs : List QCMAnswer) :
    groupTimeline cfg (a :: b :: bs) =
      (if cfg.enableFlashlight then
        (if cfg.enableVibration then [SeqEv.vibAnswer a.answer] else []) ++
          SeqEv.pause cfg.delayAfterSeparator ::
          SeqEv.flash cfg.flashlightSeparatorDuration ::
          SeqEv.pause cfg.delayAfterSeparator :: groupTimeline cfg (b :: bs)
      else
        (if cfg.enableVibration then [SeqEv.vibAnswer a.answer] else []) ++
          groupTimeline cfg (b :: bs)) := rfl

theorem runGroupAnswers_eq_replay (cfg : QCMVibrationFlashSettings) (fail : Nat → Bool) :
    ∀ (l : List QCMAnswer) (k : Nat),
      runGroupAnswers cfg fail l k = replaySeq fail (groupTimeline cfg l) k := by
  intro l
  induction l with
  | nil => intro k; rfl
  | cons a rest ih =>
    intro k
    cases rest with
    | nil =>
      cases hv : cfg.enableVibration <;>
        simp [runGroupAnswers, groupTimeline, hv, replaySeq_nil, replaySeq_cons_nonflash,
          isFlashEv]
    | cons b bs =>
      rcases hx : runGroupAnswers cfg fail (b :: bs) (k + 1) with ⟨t, k2, r⟩
      rcases hy : runGroupAnswers cfg fail (b :: bs) k with ⟨t2, k3, r2⟩
      have hx2 : replaySeq fail (groupTimeline cfg (b :: bs)) (k + 1) = (t, k2, r) := by
        rw [← ih (k + 1), hx]
      have hy2 : replaySeq fail (groupTimeline cfg (b :: bs)) k = (t2, k3, r2) := by
        rw [← ih k, hy]
      rw [runGroupAnswers_cons2 cfg fail a b bs k, groupTimeline_cons2 cfg a b bs, hx, hy]
      cases hfl : cfg.enableFlashlight <;> cases hv : cfg.enableVibration <;>
        cases hk : fail k <;>
          simp [hk, replaySeq_cons_nonflash, replaySeq_cons_flash_ok, replaySeq_cons_flash_fail,
            isFlashEv, hx2, hy2]

theorem runGroups_single (cfg : QCMVibrationFlashSettings) (fail : Nat → Bool)
    (g : Nat × List QCMAnswer) (k : Nat) :
    runGroups cfg fail [g] k =
      (match runGroupAnswers cfg fail g.2 k with
       | (t1, k1, some j) => (t1, k1, some j)
       | (t1, k1, none) => (t1, k1, none)) := rfl

theorem timelineOfGroups_single (cfg : QCMVibrationFlashSettings) (g : Nat × List QCMAnswer) :
    timelineOfGroups cfg [g] = groupTimeline cfg g.2 := rfl

theorem runGroups_cons2 (cfg : QCMVibrationFlashSettings) (fail : Nat → Bool)
    (g g2 : Nat × List QCMAnswer) (rest2 : List (Nat × List QCMAnswer)) (k : Nat) :
    runGroups cfg fail (g :: g2 :: rest2) k =
      (match runGroupAnswers cfg fail g.2 k with
       | (t1, k1, some j) => (t1, k1, some j)
       | (t1, k1, none) =>
         (t1 ++ SeqEv.pause cfg.delayBetweenAnswers :: (runGroups cfg fail (g2 :: rest2) k1).1,
           (runGroups cfg fail (g2 :: rest2) k1).2)) := rfl

theorem timelineOfGroups_cons2 (cfg : QCMVibrationFlashSettings)
    (g g2 : Nat × List QCMAnswer) (rest2 : List (Nat × List QCMAnswer)) :
    timelineOfGroups cfg (g :: g2 :: rest2) =
      groupTimeline cfg g.2 ++ SeqEv.pause cfg.delayBetweenAnswers ::
        timelineOfGroups cfg (g2 :: rest2) := rfl

theorem runGroups_eq_replay (cfg : QCMVibrationFlashSettings) (fail : Nat → Bool) :
    ∀ (gs : List (Nat × List QCMAnswer)) (k : Nat),
      runGroups cfg fail gs k = replaySeq fail (timelineOfGroups cfg gs) k := by
  intro gs
  induction gs with
  | nil => intro k; rfl
  | cons g rest ih =>
    intro k
    rcases hx : runGroupAnswers cfg fail g.2 k with ⟨t1, k1, r1⟩
    have hx2 : replaySeq fail (groupTimeline cfg g.2) k = (t1, k1, r1) := by
      rw [← runGroupAnswers_eq_replay cfg fail g.2 k, hx]
    cases rest with
    | nil =>
      rw [runGroups_single, hx, timelineOfGroups_single]
      cases r1 with
      | none => simp [hx2]
      | some j => simp [hx2]
    | cons g2 rest2 =>
      cases r1 with
      | some j =>
        rw [runGroups_cons2, hx, timelineOfGroups_cons2]
        simp [replaySeq_append_fail fail _ k t1 k1 j hx2]
      | none =>
        rcases hy : runGroups cfg fail (g2 :: rest2) k1 with ⟨t2, k2, r2⟩
        have hy2 : replaySeq fail (timelineOfGroups cfg (g2 :: rest2)) k1 = (t2, k2, r2) := by
          rw [← ih k1, hy]
        rw [runGroups_cons2, hx, timelineOfGroups_cons2]
        simp [hy, hy2, replaySeq_append_ok fail _ k t1 k1 hx2, replaySeq_cons_nonflash,
          isFlashEv]

/-- The timeline only ever contains answer vibrations, pauses and flashes:
no question-number encoding and no emergency cleanup. -/
def timelineEvOk (e : SeqEv) : Bool :=
  match e with
  | SeqEv.vibQuestionNumber _ => false
  | SeqEv.emergencyOff => false
  | _ => true

theorem groupTimeline_all (cfg : QCMVibrationFlashSettings) :
    ∀ l : List QCMAnswer, (groupTimeline cfg l).all timelineEvOk = true := by
  intro l
  induction l with
  | nil => rfl
  | cons a rest ih =>
    cases rest with
    | nil =>
      cases hv : cfg.enableVibration <;> simp [groupTimeline, hv, timelineEvOk]
    | cons b bs =>
      rw [groupTimeline_cons2]
      cases hfl : cfg.enableFlashlight <;> cases hv : cfg.enableVibration <;>
        simp [hfl, hv, timelineEvOk, ih]

theorem timelineOfGroups_all (cfg : QCMVibrationFlashSettings) :
    ∀ gs : List (Nat × List QCMAnswer), (timelineOfGroups cfg gs).all timelineEvOk = true := by
  intro gs
  induction gs with
  | nil => rfl
  | cons g rest ih =>
    cases rest with
    | nil =>
      rw [timelineOfGroups_single]
      exact groupTimeline_all cfg g.2
    | cons g2 rest2 =>
      rw [timelineOfGroups_cons2]
      simp [groupTimeline_all cfg g.2, timelineEvOk, ih]

/-- A failure-free run executes exactly the deterministic timeline and
completes normally. -/
theorem process_noFail (answers : List QCMAnswer) (ps : PartialQCMSettings) :
    processQCMWithFlashSeparation answers ps noFailOracle =
      (timelineOf answers (mergeSettings ps), none) := by
  unfold processQCMWithFlashSeparation
  simp only [runGroups_eq_replay, replaySeq_noFail]
  rfl

theorem insertKey_nodup (ks : List Nat) (k : Nat) (h : ks.Nodup) : (insertKey ks k).Nodup := by
  unfold insertKey
  by_cases hk : k ∈ ks
  · simp [hk, h]
  · simp [hk, List.nodup_append, h]

theorem questionKeys_nodup (answers : List QCMAnswer) : (questionKeys answers).Nodup := by
  have hgen : ∀ (l : List QCMAnswer) (ks : List Nat), ks.Nodup →
      (List.foldl (fun ks a => insertKey ks a.questionNumber) ks l).Nodup := by
    intro l
    induction l with
    | nil => intro ks h; exact h
    | cons a rest ih =>
      intro ks h
      exact ih _ (insertKey_nodup ks a.questionNumber h)
  exact hgen answers [] List.nodup_nil

theorem groupKeys_pairwise (answers : List QCMAnswer) :
    ((groupAnswersByQuestion answers).map Prod.fst).Pairwise (· < ·) := by
  unfold groupAnswersByQuestion
  rw [List.map_map]
  have hcomp : (Prod.fst ∘ fun q : Nat =>
      (q, insSort leByAnswer (answers.filter (fun a => decide (a.questionNumber = q))))) =
      id := rfl
  rw [hcomp, List.map_id]
  have htot : ∀ a b : Nat, decide (a ≤ b) = true ∨ decide (b ≤ a) = true := by
    intro a b
    rcases Nat.le_total a b with h | h
    · exact Or.inl (decide_eq_true h)
    · exact Or.inr (decide_eq_true h)
  have htrans : ∀ a b c : Nat, decide (a ≤ b) = true → decide (b ≤ c) = true →
      decide (a ≤ c) = true := by
    intro a b c h1 h2
    exact decide_eq_true (Nat.le_trans (of_decide_eq_true h1) (of_decide_eq_true h2))
  have hsorted := pairwise_insSort (fun a b : Nat => decide (a ≤ b)) htot htrans
    (questionKeys answers)
  have hperm := insSort_perm (fun a b : Nat => decide (a ≤ b)) (questionKeys answers)
  have hnodup : (insSort (fun a b : Nat => decide (a ≤ b)) (questionKeys answers)).Pairwise
      (· ≠ ·) := hperm.nodup_iff.mpr (questionKeys_nodup answers)
  refine (pairwise_and hsorted hnodup).imp ?_
  intro a b hab
  exact lt_of_le_of_ne (of_decide_eq_true hab.1) hab.2

theorem ltKey_same_fst (q : Nat) (x y : List Char) : ltKey (q, x) (q, y) = lexLtC x y := by
  simp [ltKey]

/-- On an input list that is already sorted the way an `AnswerSet` is, the
within-group re-sort of `groupAnswersByQuestion` is the identity, so each
group is exactly the sub-sequence of its question's answers in input order. -/
theorem group_content (answers : List QCMAnswer)
    (hs : answers.Pairwise (fun a b => leAnswer a b = true)) :
    ∀ g ∈ groupAnswersByQuestion answers,
      g.2 = answers.filter (fun a => decide (a.questionNumber = g.1)) := by
  intro g hg
  unfold groupAnswersByQuestion at hg
  rcases List.mem_map.mp hg with ⟨q, hq, rfl⟩
  refine insSort_of_pairwise leByAnswer _ ?_
  have hf : (answers.filter (fun a => decide (a.questionNumber = q))).Pairwise
      (fun a b => leAnswer a b = true) := hs.filter _
  refine List.Pairwise.imp_of_mem ?_ hf
  intro a b ha hb hr
  have hqa : a.questionNumber = q := of_decide_eq_true (List.mem_filter.mp ha).2
  have hqb : b.questionNumber = q := of_decide_eq_true (List.mem_filter.mp hb).2
  unfold leAnswer at hr
  unfold leByAnswer
  rw [ltAnswer] at hr
  unfold keyOf at hr
  rw [hqa, hqb, ltKey_same_fst] at hr
  exact hr

/-! ### Claims about the sequencer -/

/-- C3 (amended): `processQCMWithFlashSeparation` groups the answers by
question number, plays the groups in ascending question-number order, and
keeps the AnswerSet's order inside each group (its within-group re-sort by
answer is the identity on a sorted input); but it emits NO question-number
encoding — each group's playback consists solely of the letter encodings and
separator steps. -/
theorem process_groups_without_question_encoding (answers : List QCMAnswer)
    (ps : PartialQCMSettings)
    (hs : answers.Pairwise (fun a b => leAnswer a b = true)) :
    processQCMWithFlashSeparation answers ps noFailOracle =
        (timelineOf answers (mergeSettings ps), none) ∧
      ((groupAnswersByQuestion answers).map Prod.fst).Pairwise (· < ·) ∧
      (∀ g ∈ groupAnswersByQuestion answers,
        g.2 = answers.filter (fun a => decide (a.questionNumber = g.1))) ∧
      ∀ e ∈ timelineOf answers (mergeSettings ps), isQuestionNumberEv e = false := by
  refine ⟨process_noFail answers ps, groupKeys_pairwise answers, group_content answers hs, ?_⟩
  intro e he
  have hall := timelineOfGroups_all (mergeSettings ps) (groupAnswersByQuestion answers)
  have hok := List.all_eq_true.mp hall e he
  cases e with
  | vibQuestionNumber n => exact absurd hok (by simp [timelineEvOk])
  | vibAnswer a => rfl
  | pause m => rfl
  | flash m => rfl
  | emergencyOff => rfl

/-- Witness for the amended C3 at a concrete sorted AnswerSet. -/
theorem process_groups_without_question_encoding_witness :
    processQCMWithFlashSeparation
        [⟨1, "a".data, "1/a".data⟩, ⟨1, "b".data, "1/b".data⟩, ⟨2, "c".data, "2/c".data⟩]
        ⟨none, none, none, none, none⟩ noFailOracle =
        (timelineOf
          [⟨1, "a".data, "1/a".data⟩, ⟨1, "b".data, "1/b".data⟩, ⟨2, "c".data, "2/c".data⟩]
          (mergeSettings ⟨none, none, none, none, none⟩), none) ∧
      ((groupAnswersByQuestion
        [⟨1, "a".data, "1/a".data⟩, ⟨1, "b".data, "1/b".data⟩,
          ⟨2, "c".data, "2/c".data⟩]).map Prod.fst).Pairwise (· < ·) ∧
      (∀ g ∈ groupAnswersByQuestion
          [⟨1, "a".data, "1/a".data⟩, ⟨1, "b".data, "1/b".data⟩, ⟨2, "c".data, "2/c".data⟩],
        g.2 = [⟨1, "a".data, "1/a".data⟩, ⟨1, "b".data, "1/b".data⟩,
            ⟨2, "c".data, "2/c".data⟩].filter (fun a => decide (a.questionNumber = g.1))) ∧
      ∀ e ∈ timelineOf
          [⟨1, "a".data, "1/a".data⟩, ⟨1, "b".data, "1/b".data⟩, ⟨2, "c".data, "2/c".data⟩]
          (mergeSettings ⟨none, none, none, none, none⟩), isQuestionNumberEv e = false :=
  process_groups_without_question_encoding
    [⟨1, "a".data, "1/a".data⟩, ⟨1, "b".data, "1/b".data⟩, ⟨2, "c".data, "2/c".data⟩]
    ⟨none, none, none, none, none⟩ (by decide)

/-- C3 counterexample: the playback of a concrete two-answer AnswerSet contains
letter encodings but no question-number encoding at all, contradicting the
claim that each group's question-number encoding is emitted before the group's
letter encodings. -/
theorem process_emits_no_question_number_encoding :
    ((processQCMWithFlashSeparation [⟨1, "a".data, "1/a".data⟩, ⟨1, "b".data, "1/b".data⟩]
        ⟨none, none, none, none, none⟩ noFailOracle).1.any isAnswerEv = true) ∧
      ((processQCMWithFlashSeparation [⟨1, "a".data, "1/a".data⟩, ⟨1, "b".data, "1/b".data⟩]
        ⟨none, none, none, none, none⟩ noFailOracle).1.any isQuestionNumberEv = false) :=
  ⟨by decide, by decide⟩

/-- C4: when the `j`-th flash call rejects, the run executes exactly a proper
prefix of the deterministic timeline (the remainder is aborted), appends the
single `emergencyOff` cleanup call as its final step before propagating, and
surfaces exactly one failure carrying the underlying cause — the first
rejecting call (`fail j = true`, all earlier flash calls succeeded, and the
failing call is not retried). -/
theorem process_failure_aborts_and_cleans_up (answers : List QCMAnswer)
    (ps : PartialQCMSettings) (fail : Nat → Bool) (j : Nat)
    (h : (processQCMWithFlashSeparation answers ps fail).2 = some j) :
    (∃ m, m < (timelineOf answers (mergeSettings ps)).length ∧
      (processQCMWithFlashSeparation answers ps fail).1 =
        (timelineOf answers (mergeSettings ps)).take m ++ [SeqEv.emergencyOff] ∧
      ∀ e ∈ (timelineOf answers (mergeSettings ps)).take m, e ≠ SeqEv.emergencyOff) ∧
    fail j = true ∧ ∀ i, i < j → fail i = false := by
  have hr0 : runGroups (mergeSettings ps) fail (groupAnswersByQuestion answers) 0 =
      replaySeq fail (timelineOf answers (mergeSettings ps)) 0 :=
    runGroups_eq_replay (mergeSettings ps) fail (groupAnswersByQuestion answers) 0
  rcases hrr : replaySeq fail (timelineOf answers (mergeSettings ps)) 0 with ⟨a, k2, r⟩
  have hx : runGroups (mergeSettings ps) fail (groupAnswersByQuestion answers) 0 =
      (a, k2, r) := hr0.trans hrr
  have hproc : processQCMWithFlashSeparation answers ps fail =
      (match (a, k2, r) with
       | (t, _, none) => (t, none)
       | (t, _, some j2) => (t ++ [SeqEv.emergencyOff], some j2)) := by
    unfold processQCMWithFlashSeparation
    simp only [hx]
  cases r with
  | none => rw [hproc] at h; simp at h
  | some j2 =>
    rw [hproc] at h
    obtain rfl : j2 = j := by simpa using h
    obtain ⟨⟨m, hm, hmeq⟩, hfj, -, hmin⟩ := replaySeq_fail_spec fail _ 0 a k2 j2 hrr
    refine ⟨⟨m, hm, ?_, ?_⟩, hfj, fun i hi => hmin i (Nat.zero_le i) hi⟩
    · rw [hproc]
      simp [hmeq]
    · intro e he
      have hsub : e ∈ timelineOf answers (mergeSettings ps) := List.take_subset m _ he
      have hall := timelineOfGroups_all (mergeSettings ps) (groupAnswersByQuestion answers)
      have hok := List.all_eq_true.mp hall e hsub
      cases e with
      | emergencyOff => exact absurd hok (by simp [timelineEvOk])
      | vibQuestionNumber n => simp
      | vibAnswer x => simp
      | pause x => simp
      | flash x => simp

/-- Witness for C4: the first flash call of a concrete run rejects. -/
theorem process_failure_aborts_and_cleans_up_witness :
    ((∃ m, m < (timelineOf [⟨1, "a".data, "1/a".data⟩, ⟨1, "b".data, "1/b".data⟩]
        (mergeSettings ⟨none, none, none, none, none⟩)).length ∧
      (processQCMWithFlashSeparation [⟨1, "a".data, "1/a".data⟩, ⟨1, "b".data, "1/b".data⟩]
          ⟨none, none, none, none, none⟩ (fun k => decide (k = 0))).1 =
        (timelineOf [⟨1, "a".data, "1/a".data⟩, ⟨1, "b".data, "1/b".data⟩]
          (mergeSettings ⟨none, none, none, none, none⟩)).take m ++ [SeqEv.emergencyOff] ∧
      ∀ e ∈ (timelineOf [⟨1, "a".data, "1/a".data⟩, ⟨1, "b".data, "1/b".data⟩]
          (mergeSettings ⟨none, none, none, none, none⟩)).take m, e ≠ SeqEv.emergencyOff) ∧
    (fun k => decide (k = 0)) 0 = true ∧
    ∀ i, i < 0 → (fun k => decide (k = 0)) i = false) :=
  process_failure_aborts_and_cleans_up
    [⟨1, "a".data, "1/a".data⟩, ⟨1, "b".data, "1/b".data⟩]
    ⟨none, none, none, none, none⟩ (fun k => decide (k = 0)) 0 (by decide)

/-- C5 (amended): the sequencer offers no cancellation.  A cancellation
request schedule has no influence on a run (the source checks no flag between
steps), and a failure-free run executes its entire timeline and completes
normally rather than returning a cancelled signal. -/
theorem process_ignores_cancellation (answers : List QCMAnswer) (ps : PartialQCMSettings)
    (fail c1 c2 : Nat → Bool) :
    processQCMWithCancellation answers ps fail c1 =
        processQCMWithCancellation answers ps fail c2 ∧
      processQCMWithCancellation answers ps noFailOracle c1 =
        (timelineOf answers (mergeSettings ps), none) :=
  ⟨rfl, process_noFail answers ps⟩

/-- C5 counterexample: with cancellation requested before every step of a
7-step timeline, the run still executes all 7 steps and completes normally —
no step after the request is skipped and no cancelled signal exists. -/
theorem cancellation_request_never_observed :
    processQCMWithCancellation
        [⟨1, "a".data, "1/a".data⟩, ⟨1, "b".data, "1/b".data⟩, ⟨2, "c".data, "2/c".data⟩]
        ⟨none, none, none, none, none⟩ noFailOracle (fun _ => true) =
      ([SeqEv.vibAnswer ("a".data), SeqEv.pause 300, SeqEv.flash 500, SeqEv.pause 300,
        SeqEv.vibAnswer ("b".data), SeqEv.pause 1000, SeqEv.vibAnswer ("c".data)], none) := by
  decide

/-- C6: for a single question with exactly two (distinct, AnswerSet-ordered)
answers and the flashlight enabled, the playback is the first letter encoding,
one separator flash bracketed by the `delayAfterSeparator` pauses, then the
second letter encoding — exactly one flash, between the two answer encodings
and not after the last one. -/
theorem process_two_answers_single_separator_flash (q : Nat) (a1 a2 r1 r2 : List Char)
    (ps : PartialQCMSettings) (hf : (mergeSettings ps).enableFlashlight = true)
    (hlt : lexLtC a1 a2 = true) :
    processQCMWithFlashSeparation [⟨q, a1, r1⟩, ⟨q, a2, r2⟩] ps noFailOracle =
        ((if (mergeSettings ps).enableVibration then [SeqEv.vibAnswer a1] else []) ++
          SeqEv.pause (mergeSettings ps).delayAfterSeparator ::
          SeqEv.flash (mergeSettings ps).flashlightSeparatorDuration ::
          SeqEv.pause (mergeSettings ps).delayAfterSeparator ::
          (if (mergeSettings ps).enableVibration then [SeqEv.vibAnswer a2] else []), none) ∧
      countFlash
        (processQCMWithFlashSeparation [⟨q, a1, r1⟩, ⟨q, a2, r2⟩] ps noFailOracle).1 = 1 := by
  have hasym := lexLtC_asymm a1 a2 hlt
  have hgroups : groupAnswersByQuestion [⟨q, a1, r1⟩, ⟨q, a2, r2⟩] =
      [(q, [⟨q, a1, r1⟩, ⟨q, a2, r2⟩])] := by
    unfold groupAnswersByQuestion questionKeys insertKey
    simp [insSort, ordInsert, leByAnswer, hasym, List.filter]
  have htrace : processQCMWithFlashSeparation [⟨q, a1, r1⟩, ⟨q, a2, r2⟩] ps noFailOracle =
      ((if (mergeSettings ps).enableVibration then [SeqEv.vibAnswer a1] else []) ++
        SeqEv.pause (mergeSettings ps).delayAfterSeparator ::
        SeqEv.flash (mergeSettings ps).flashlightSeparatorDuration ::
        SeqEv.pause (mergeSettings ps).delayAfterSeparator ::
        (if (mergeSettings ps).enableVibration then [SeqEv.vibAnswer a2] else []), none) := by
    rw [process_noFail]
    unfold timelineOf
    rw [hgroups, timelineOfGroups_single, groupTimeline_cons2, hf]
    simp [groupTimeline]
  refine ⟨htrace, ?_⟩
  rw [htrace]
  cases hv : (mergeSettings ps).enableVibration <;> simp [hv, countFlash, isFlashEv]

/-- Witness for C6 at a concrete two-answer question. -/
theorem process_two_answers_single_separator_flash_witness :
    processQCMWithFlashSeparation [⟨3, "a".data, "3/a".data⟩, ⟨3, "b".data, "3/b".data⟩]
        ⟨none, none, none, none, none⟩ noFailOracle =
        ((if (mergeSettings ⟨none, none, none, none, none⟩).enableVibration then
            [SeqEv.vibAnswer ("a".data)] else []) ++
          SeqEv.pause (mergeSettings ⟨none, none, none, none, none⟩).delayAfterSeparator ::
          SeqEv.flash
            (mergeSettings ⟨none, none, none, none, none⟩).flashlightSeparatorDuration ::
          SeqEv.pause (mergeSettings ⟨none, none, none, none, none⟩).delayAfterSeparator ::
          (if (mergeSettings ⟨none, none, none, none, none⟩).enableVibration then
            [SeqEv.vibAnswer ("b".data)] else []), none) ∧
      countFlash
        (processQCMWithFlashSeparation [⟨3, "a".data, "3/a".data⟩, ⟨3, "b".data, "3/b".data⟩]
          ⟨none, none, none, none, none⟩ noFailOracle).1 = 1 :=
  process_two_answers_single_separator_flash 3 ("a".data) ("b".data) ("3/a".data) ("3/b".data)
    ⟨none, none, none, none, none⟩ (by decide) (by decide)

/-- C7 (amended): the sequencer performs no configuration validation at all —
for every partial settings object, including ones with negative durations, the
merged configuration is used as-is, the run executes its full timeline and
completes normally; nothing is rejected before (or instead of) running. -/
theorem process_accepts_any_configuration (answers : List QCMAnswer)
    (ps : PartialQCMSettings) :
    (processQCMWithFlashSeparation answers ps noFailOracle).2 = none ∧
      (processQCMWithFlashSeparation answers ps noFailOracle).1 =
        timelineOf answers (mergeSettings ps) := by
  rw [process_noFail]
  exact ⟨rfl, rfl⟩

/-- C7 counterexample: a configuration with negative `flashlightSeparatorDuration`,
`delayBetweenAnswers` and `delayAfterSeparator` is not rejected — the run
proceeds, emits its steps with the negative durations, and completes
normally. -/
theorem negative_durations_not_rejected :
    processQCMWithFlashSeparation [⟨1, "a".data, "1/a".data⟩, ⟨1, "b".data, "1/b".data⟩]
        ⟨none, none, some (-100), some (-5), some (-1)⟩ noFailOracle =
      ([SeqEv.vibAnswer ("a".data), SeqEv.pause (-1), SeqEv.flash (-100), SeqEv.pause (-1),
        SeqEv.vibAnswer ("b".data)], none) ∧
      (processQCMWithFlashSeparation [⟨1, "a".data, "1/a".data⟩, ⟨1, "b".data, "1/b".data⟩]
          ⟨none, none, some (-100), some (-5), some (-1)⟩ noFailOracle).1 ≠ [] :=
  ⟨by decide, by decide⟩

end QCMVibrationFlashService

end QCM
